import Mathlib

/-!
# Verification of the `dstr` crate

A shallow embedding of the `dstr` crate (nul-terminated UTF-8 strings) in
Lean 4, together with proofs about its behaviour.

Modelling conventions:
* Rust byte slices (`&[u8]`) and string slices (`&str`) are modelled as
  `List Nat`, each element being one byte (a `str` is represented by its
  UTF-8 byte sequence).
* `usize` arithmetic is modelled over `Nat`; none of the quantities here
  can overflow in the source (lengths of in-memory slices).
* Operations whose Rust counterpart has an undefined-behaviour branch
  (an `unsafe` precondition that the code does not check) return
  `Option`: `none` models the branch where the precondition is violated,
  `some v` the defined result.
* Fallible conversions return `Except`.
* A Rust panic (`todo!`) is modelled as `none`.
-/

namespace Dstr

/-! ## `src/mem.rs` -/

/-- Loop body of `memchr` from `src/mem.rs`.

The Rust source iterates `index` from `0` while `index < haystack.len()`,
testing `haystack[index] == needle`.  Here `remaining` is the suffix
`haystack[index..]` of the original haystack, so the head of `remaining`
is exactly `haystack[index]`; the loop counter `index` is threaded
explicitly. -/
def memchrLoop (needle : Nat) : List Nat → Nat → Option Nat
  | [], _ => none
  | b :: remaining, index =>
    if b = needle then some index else memchrLoop needle remaining (index + 1)

/-- `pub const fn memchr(needle: u8, haystack: &[u8]) -> Option<usize>`
from `src/mem.rs`: first index of `needle` in `haystack`, scanning left
to right, `None` if absent. -/
def memchr (needle : Nat) (haystack : List Nat) : Option Nat :=
  memchrLoop needle haystack 0

/-- Loop body of `strlen` from `src/mem.rs`.

The Rust source runs `while *ptr.add(len) != 0 { len += 1 }` over raw
memory.  Memory reachable from `ptr` is modelled as `mem : Nat → Nat`
(the byte at each offset).  The loop has no bound in the source — the
caller contract promises a nul within `isize::MAX` bytes — so the model
carries an explicit `fuel` bound on iterations; `none` models the run
that exhausts any bound (the undefined/non-terminating case). -/
def strlenLoop (mem : Nat → Nat) : Nat → Nat → Option Nat
  | 0, _ => none
  | fuel + 1, len =>
    if mem len = 0 then some len else strlenLoop mem fuel (len + 1)

/-- `pub const unsafe fn strlen(ptr: *const c_char) -> usize` from
`src/mem.rs`, over the memory model `mem` with iteration bound `fuel`. -/
def strlen (mem : Nat → Nat) (fuel : Nat) : Option Nat :=
  strlenLoop mem fuel 0

/-! ## UTF-8 validity

The crate stores its data in a Rust `str`, whose type-level contract
(from `core`) is that the bytes are valid UTF-8.  The crate itself never
implements UTF-8 validation; the predicate below is the standard
well-formedness condition on UTF-8 byte sequences (RFC 3629 byte
ranges), used to express invariant I1 of `DStr` and the precondition of
`core::str::from_utf8_unchecked`. -/

/-- A UTF-8 continuation byte: `0x80 ..= 0xBF`. -/
def utf8Cont (b : Nat) : Bool := 0x80 ≤ b && b ≤ 0xBF

/-- `utf8Valid l = true` iff `l` is a well-formed UTF-8 byte sequence
(RFC 3629: shortest forms only, no surrogates, max `U+10FFFF`). -/
def utf8Valid : List Nat → Bool
  | [] => true
  | b :: rest =>
    if b ≤ 0x7F then utf8Valid rest
    else
      match rest with
      | [] => false
      | c1 :: r1 =>
        if 0xC2 ≤ b && b ≤ 0xDF then utf8Cont c1 && utf8Valid r1
        else
          match r1 with
          | [] => false
          | c2 :: r2 =>
            if b = 0xE0 then
              (0xA0 ≤ c1 && c1 ≤ 0xBF) && (utf8Cont c2 && utf8Valid r2)
            else if (0xE1 ≤ b && b ≤ 0xEC) || (0xEE ≤ b && b ≤ 0xEF) then
              utf8Cont c1 && (utf8Cont c2 && utf8Valid r2)
            else if b = 0xED then
              (0x80 ≤ c1 && c1 ≤ 0x9F) && (utf8Cont c2 && utf8Valid r2)
            else
              match r2 with
              | [] => false
              | c3 :: r3 =>
                if b = 0xF0 then
                  (0x90 ≤ c1 && c1 ≤ 0xBF) && (utf8Cont c2 && (utf8Cont c3 && utf8Valid r3))
                else if 0xF1 ≤ b && b ≤ 0xF3 then
                  utf8Cont c1 && (utf8Cont c2 && (utf8Cont c3 && utf8Valid r3))
                else if b = 0xF4 then
                  (0x80 ≤ c1 && c1 ≤ 0x8F) && (utf8Cont c2 && (utf8Cont c3 && utf8Valid r3))
                else false

/-! ## `src/dstr/error.rs` -/

/-- `core::str::Utf8Error`, the payload of the invalid-UTF-8 variant.
Only its data content matters here: the position up to which the input
was valid and the length of the offending sequence (`None` meaning the
input ended unexpectedly). -/
structure Utf8Error where
  valid_up_to : Nat
  error_len : Option Nat
deriving DecidableEq, Repr

/-- `pub enum FromStrError` from `src/dstr/error.rs`. -/
inductive FromStrError where
  | NotNulTerminated
  | InteriorNul (nul_pos : Nat)
  | MissingNul
deriving DecidableEq, Repr

/-- `pub enum FromBytesError` from `src/dstr/error.rs`. -/
inductive FromBytesError where
  | NotNulTerminated
  | InteriorNul (nul_pos : Nat)
  | MissingNul
  | InvalidUtf8 (err : Utf8Error)
deriving DecidableEq, Repr

/-- `FromStrError::to_from_bytes_error` from `src/dstr/error.rs`. -/
def FromStrError.to_from_bytes_error : FromStrError → FromBytesError
  | .NotNulTerminated => .NotNulTerminated
  | .InteriorNul nul_pos => .InteriorNul nul_pos
  | .MissingNul => .MissingNul

/-- `impl From<FromStrError> for FromBytesError` from `src/dstr/error.rs`
(delegates to `to_from_bytes_error`). -/
def FromBytesError.fromFromStrError (value : FromStrError) : FromBytesError :=
  value.to_from_bytes_error

/-- `impl TryFrom<FromBytesError> for FromStrError` from
`src/dstr/error.rs`; the error type is `()`. -/
def FromStrError.tryFromFromBytesError : FromBytesError → Except Unit FromStrError
  | .NotNulTerminated => .ok .NotNulTerminated
  | .InteriorNul nul_pos => .ok (.InteriorNul nul_pos)
  | .MissingNul => .ok .MissingNul
  | .InvalidUtf8 _ => .error ()

/-- `impl PartialEq<FromBytesError> for FromStrError` from
`src/dstr/error.rs`: try to narrow `other` and compare (the derived
structural equality of `FromStrError`, written `decide (_ = _)`),
`false` when the narrowing fails. -/
def FromStrError.eqFromBytesError (self : FromStrError) (other : FromBytesError) : Bool :=
  match FromStrError.tryFromFromBytesError other with
  | .ok other => decide (self = other)
  | .error _ => false

/-- `impl PartialEq<FromStrError> for FromBytesError` from
`src/dstr/error.rs`: widen `other` and compare with the derived
structural equality of `FromBytesError`. -/
def FromBytesError.eqFromStrError (self : FromBytesError) (other : FromStrError) : Bool :=
  decide (self = FromBytesError.fromFromStrError other)

/-! ## `src/dstr.rs` — the `DStr` view -/

/-- `pub struct DStr { raw: str }` from `src/dstr.rs`: a view over a
`str`, represented by its UTF-8 byte sequence. -/
structure DStr where
  raw : List Nat
deriving DecidableEq, Repr

namespace DStr

/-- The safety invariant documented on `DStr` in `src/dstr.rs`:
I1 — the bytes are valid UTF-8 (type-level contract of the inner `str`);
I2 — the final byte is a nul and no byte before it is a nul. -/
def Inv (s : DStr) : Prop :=
  utf8Valid s.raw = true ∧ s.raw.getLast? = some 0 ∧
    ∀ i, i < s.raw.length - 1 → ¬ s.raw[i]? = some 0

instance (s : DStr) : Decidable s.Inv := by
  unfold Inv
  exact inferInstance

/-- `DStr::len_with_nul` from `src/dstr.rs`: the length of `raw`, passed
through `NonZeroUsize::new_unchecked`.  That step has undefined behaviour
when the length is zero, modelled by `none`; `some n` carries the value
of the resulting `NonZeroUsize`. -/
def len_with_nul (s : DStr) : Option Nat :=
  if s.raw.length = 0 then none else some s.raw.length

/-- `DStr::len` from `src/dstr.rs`: `self.len_with_nul().get() - 1`. -/
def len (s : DStr) : Option Nat :=
  (s.len_with_nul).map (· - 1)

/-- `DStr::is_empty` from `src/dstr.rs`: reads the first byte through
`self.raw.as_ptr()` and compares it with 0.  The read is undefined when
`raw` is empty (dangling one-past-the-end pointer), modelled by `none`. -/
def is_empty (s : DStr) : Option Bool :=
  match s.raw with
  | [] => none
  | b :: _ => some (b == 0)

/-- `DStr::as_bytes_with_nul` from `src/dstr.rs`: `self.raw.as_bytes()`,
a total reinterpretation of the same bytes. -/
def as_bytes_with_nul (s : DStr) : List Nat :=
  s.raw

/-- `DStr::as_bytes` from `src/dstr.rs`:
`from_raw_parts(self.raw.as_ptr(), self.len())` — the first `len` bytes
of the buffer.  Undefined (`none`) when `len` itself is undefined or the
requested length exceeds the underlying allocation. -/
def as_bytes (s : DStr) : Option (List Nat) :=
  (s.len).bind fun n =>
    if n ≤ s.raw.length then some (s.raw.take n) else none

/-- `DStr::as_str_with_nul` from `src/dstr.rs`: `&self.raw`. -/
def as_str_with_nul (s : DStr) : List Nat :=
  s.raw

/-- `DStr::as_str` from `src/dstr.rs`:
`from_utf8_unchecked(self.as_bytes())` — undefined (`none`) when the
bytes are not valid UTF-8. -/
def as_str (s : DStr) : Option (List Nat) :=
  (s.as_bytes).bind fun bs =>
    if utf8Valid bs = true then some bs else none

/-- `DStr::as_cstr` from `src/dstr.rs`:
`CStr::from_bytes_with_nul_unchecked(self.as_bytes_with_nul())` —
undefined (`none`) unless the bytes end in a nul and contain no interior
nul (the `CStr` contract). -/
def as_cstr (s : DStr) : Option (List Nat) :=
  let bs := s.as_bytes_with_nul
  if bs.getLast? = some 0 ∧ ∀ i, i < bs.length - 1 → ¬ bs[i]? = some 0
  then some bs else none

/-- `DStr::as_ptr` from `src/dstr.rs`: `self.raw.as_ptr()`.  A pointer is
modelled by the byte sequence readable from it, so this is the full
buffer including the terminator; the operation is total. -/
def as_ptr (s : DStr) : List Nat :=
  s.raw

/-- `DStr::as_c_ptr` from `src/dstr.rs`: `self.as_ptr() as *const c_char`. -/
def as_c_ptr (s : DStr) : List Nat :=
  s.as_ptr

/-- `DStr::from_str_with_nul_unchecked` from `src/dstr.rs`: a direct
reinterpretation of the `str` as a `DStr`, no scan, no check. -/
def from_str_with_nul_unchecked (string : List Nat) : DStr :=
  ⟨string⟩

/-- `DStr::from_bytes_with_nul_unchecked` from `src/dstr.rs`: a direct
reinterpretation of the byte slice as a `DStr`, no scan, no check. -/
def from_bytes_with_nul_unchecked (bytes : List Nat) : DStr :=
  ⟨bytes⟩

/-- Modelled from the spec: the validating constructor of a `DStr` from
text known to be valid UTF-8 (the spec's "validating constructor from
text"); the repository ships only its error type `FromStrError` and the
scanner `memchr`, not the constructor itself.  Spec §4.2: "check the
final byte is zero (else `NotNulTerminated` if the buffer is non-empty
but ends in a non-zero byte, or a dedicated missing-terminator signal if
empty); scan with `find_byte(0, text)` excluding the final position — if
found before the end, fail with `InteriorNul(offset)`; otherwise
succeed." -/
def from_str_with_nul (text : List Nat) : Except FromStrError DStr :=
  match text.getLast? with
  | none => .error .MissingNul
  | some b =>
    if b ≠ 0 then .error .NotNulTerminated
    else
      match memchr 0 text.dropLast with
      | some off => .error (.InteriorNul off)
      | none => .ok ⟨text⟩

end DStr

/-! ## `src/dstring.rs` — the owned `DString` -/

/-- `pub struct DString { inner: String }` from `src/dstring.rs`,
represented by the UTF-8 bytes of the owned `String`. -/
structure DString where
  inner : List Nat
deriving DecidableEq, Repr

namespace DString

/-- `DString::as_dstr` from `src/dstring.rs` **as written**: the body is
`todo!()`, which unconditionally panics; the intended delegation
(`DStr::from_str_with_nul_unchecked(&self.inner)`) exists only as a
commented-out line.  A panic is modelled as `none`. -/
def as_dstr (_ : DString) : Option DStr :=
  none

/-- `impl Deref for DString` from `src/dstring.rs`: `self.as_dstr()`. -/
def deref (self : DString) : Option DStr :=
  self.as_dstr

/-- `impl From<&DStr> for DString` from `src/dstring.rs`: copy the
text-with-terminator into owned storage. -/
def fromDStr (value : DStr) : DString :=
  ⟨value.as_str_with_nul⟩

end DString

/-! ### Characterisation of `memchrLoop` / `strlenLoop` -/

theorem memchrLoop_some_iff (needle : Nat) :
    ∀ (l : List Nat) (start i : Nat),
      memchrLoop needle l start = some i ↔
        ∃ d, i = start + d ∧ l[d]? = some needle ∧
          ∀ j, j < d → ¬ l[j]? = some needle := by
  intro l
  induction l with
  | nil =>
    intro start i
    simp [memchrLoop]
  | cons b rest ih =>
    intro start i
    by_cases hb : b = needle
    · subst hb
      simp only [memchrLoop, if_pos rfl]
      constructor
      · rintro ⟨rfl⟩
        exact ⟨0, by simp⟩
      · rintro ⟨d, rfl, hd, hlt⟩
        match d with
        | 0 => simp
        | d + 1 => exact absurd (by simp : (b :: rest)[0]? = some b) (hlt 0 (Nat.succ_pos d))
    · simp only [memchrLoop, if_neg hb]
      rw [ih (start + 1) i]
      constructor
      · rintro ⟨d, rfl, hd, hlt⟩
        refine ⟨d + 1, by omega, by simpa using hd, ?_⟩
        intro j hj
        match j with
        | 0 => simp [hb]
        | j + 1 =>
          simpa using hlt j (by omega)
      · rintro ⟨d, rfl, hd, hlt⟩
        match d with
        | 0 => simp at hd; exact absurd hd hb
        | d + 1 =>
          refine ⟨d, by omega, by simpa using hd, ?_⟩
          intro j hj
          simpa using hlt (j + 1) (by omega)

theorem memchrLoop_none_iff (needle : Nat) :
    ∀ (l : List Nat) (start : Nat),
      memchrLoop needle l start = none ↔ ∀ (j : Nat), ¬ l[j]? = some needle := by
  intro l
  induction l with
  | nil =>
    intro start
    simp [memchrLoop]
  | cons b rest ih =>
    intro start
    by_cases hb : b = needle
    · subst hb
      simp only [memchrLoop, if_pos rfl]
      constructor
      · intro h; cases h
      · intro h; exact absurd (by simp : (b :: rest)[0]? = some b) (h 0)
    · simp only [memchrLoop, if_neg hb]
      rw [ih (start + 1)]
      constructor
      · intro h j
        match j with
        | 0 => simp [hb]
        | j + 1 => simpa using h j
      · intro h j
        simpa using h (j + 1)

theorem memchr_some_iff (needle : Nat) (haystack : List Nat) (i : Nat) :
    memchr needle haystack = some i ↔
      haystack[i]? = some needle ∧ ∀ j, j < i → ¬ haystack[j]? = some needle := by
  rw [memchr, memchrLoop_some_iff]
  constructor
  · rintro ⟨d, rfl, hd, hlt⟩
    exact ⟨by simpa using hd, by simpa using hlt⟩
  · rintro ⟨hd, hlt⟩
    exact ⟨i, by omega, hd, hlt⟩

theorem memchr_none_iff (needle : Nat) (haystack : List Nat) :
    memchr needle haystack = none ↔ ∀ (j : Nat), ¬ haystack[j]? = some needle := by
  rw [memchr, memchrLoop_none_iff]

theorem strlenLoop_eq_some (mem : Nat → Nat) :
    ∀ (fuel start k : Nat), start ≤ k → k < start + fuel → mem k = 0 →
      (∀ j, start ≤ j → j < k → mem j ≠ 0) →
      strlenLoop mem fuel start = some k := by
  intro fuel
  induction fuel with
  | zero => intro start k h1 h2; omega
  | succ fuel ih =>
    intro start k h1 h2 hk hleast
    by_cases hs : mem start = 0
    · have hek : start = k := by
        by_contra hne
        exact hleast start (Nat.le_refl _) (by omega) hs
      subst hek
      simp [strlenLoop, hs]
    · have hne : start ≠ k := fun h => hs (h ▸ hk)
      simp only [strlenLoop, if_neg hs]
      exact ih (start + 1) k (by omega) (by omega) hk
        (fun j hj1 hj2 => hleast j (by omega) hj2)


/-! ### UTF-8 helper lemmas -/

/-- Removing a trailing nul byte from a well-formed UTF-8 sequence keeps
it well-formed: the byte `0` can only ever be consumed as a standalone
one-byte scalar (it is below every continuation- and lead-byte range),
so the chunking of `l ++ [0]` restricted to `l` is a chunking of `l`. -/
theorem utf8Valid_of_append_zero :
    ∀ (n : Nat) (l : List Nat), l.length ≤ n →
      utf8Valid (l ++ [0]) = true → utf8Valid l = true := by
  intro n
  induction n with
  | zero =>
    intro l hl _
    have hnil : l = [] := List.length_eq_zero.mp (Nat.le_zero.mp hl)
    subst hnil; rfl
  | succ n ih =>
    intro l hl h
    match l with
    | [] => rfl
    | b :: rest =>
      simp only [List.cons_append] at h
      rw [utf8Valid.eq_def] at h
      rw [utf8Valid.eq_def]
      dsimp only at h ⊢
      by_cases hb : b ≤ 0x7F
      · rw [if_pos hb] at h ⊢
        exact ih rest (by simp at hl; omega) h
      · rw [if_neg hb] at h ⊢
        match rest with
        | [] =>
          simp only [List.nil_append] at h
          split at h
          · simp [utf8Cont] at h
          · simp at h
        | c1 :: rest1 =>
          simp only [List.cons_append] at h
          dsimp only at h ⊢
          by_cases hb2 : (0xC2 ≤ b && b ≤ 0xDF) = true
          · rw [if_pos hb2] at h ⊢
            simp only [Bool.and_eq_true] at h ⊢
            obtain ⟨hA, hC⟩ := h
            exact ⟨hA, ih rest1 (by simp at hl; omega) hC⟩
          · rw [if_neg hb2] at h ⊢
            match rest1 with
            | [] =>
              simp only [List.nil_append] at h
              split at h
              · simp [utf8Cont] at h
              · split at h
                · simp [utf8Cont] at h
                · split at h
                  · simp [utf8Cont] at h
                  · simp at h
            | c2 :: rest2 =>
              simp only [List.cons_append] at h
              dsimp only at h ⊢
              by_cases hbE0 : b = 0xE0
              · rw [if_pos hbE0] at h ⊢
                simp only [Bool.and_eq_true] at h ⊢
                obtain ⟨hA, hB, hC⟩ := h
                exact ⟨hA, hB, ih rest2 (by simp at hl; omega) hC⟩
              · rw [if_neg hbE0] at h ⊢
                by_cases hbE1 : ((0xE1 ≤ b && b ≤ 0xEC) || (0xEE ≤ b && b ≤ 0xEF)) = true
                · rw [if_pos hbE1] at h ⊢
                  simp only [Bool.and_eq_true] at h ⊢
                  obtain ⟨hA, hB, hC⟩ := h
                  exact ⟨hA, hB, ih rest2 (by simp at hl; omega) hC⟩
                · rw [if_neg hbE1] at h ⊢
                  by_cases hbED : b = 0xED
                  · rw [if_pos hbED] at h ⊢
                    simp only [Bool.and_eq_true] at h ⊢
                    obtain ⟨hA, hB, hC⟩ := h
                    exact ⟨hA, hB, ih rest2 (by simp at hl; omega) hC⟩
                  · rw [if_neg hbED] at h ⊢
                    match rest2 with
                    | [] =>
                      simp only [List.nil_append] at h
                      split at h
                      · simp [utf8Cont] at h
                      · split at h
                        · simp [utf8Cont] at h
                        · split at h
                          · simp [utf8Cont] at h
                          · simp at h
                    | c3 :: rest3 =>
                      simp only [List.cons_append] at h
                      dsimp only at h ⊢
                      by_cases hbF0 : b = 0xF0
                      · rw [if_pos hbF0] at h ⊢
                        simp only [Bool.and_eq_true] at h ⊢
                        obtain ⟨hA, hB, hC, hD⟩ := h
                        exact ⟨hA, hB, hC, ih rest3 (by simp at hl; omega) hD⟩
                      · rw [if_neg hbF0] at h ⊢
                        by_cases hbF1 : (0xF1 ≤ b && b ≤ 0xF3) = true
                        · rw [if_pos hbF1] at h ⊢
                          simp only [Bool.and_eq_true] at h ⊢
                          obtain ⟨hA, hB, hC, hD⟩ := h
                          exact ⟨hA, hB, hC, ih rest3 (by simp at hl; omega) hD⟩
                        · rw [if_neg hbF1] at h ⊢
                          by_cases hbF4 : b = 0xF4
                          · rw [if_pos hbF4] at h ⊢
                            simp only [Bool.and_eq_true] at h ⊢
                            obtain ⟨hA, hB, hC, hD⟩ := h
                            exact ⟨hA, hB, hC, ih rest3 (by simp at hl; omega) hD⟩
                          · rw [if_neg hbF4] at h
                            simp at h


/-! ### Helper lemmas about `memchr` on `dropLast`, UTF-8, and `Inv` -/

theorem memchr_dropLast_zero_some_iff (text : List Nat) (off : Nat) :
    memchr 0 text.dropLast = some off ↔
      off < text.length - 1 ∧ text[off]? = some 0 ∧
        ∀ j, j < off → ¬ text[j]? = some 0 := by
  rw [memchr_some_iff]
  constructor
  · rintro ⟨hoff, hlt⟩
    rw [List.getElem?_dropLast] at hoff
    by_cases hb : off < text.length - 1
    · rw [if_pos hb] at hoff
      refine ⟨hb, hoff, fun j hj => ?_⟩
      have hj2 := hlt j hj
      rw [List.getElem?_dropLast, if_pos (by omega)] at hj2
      exact hj2
    · rw [if_neg hb] at hoff; cases hoff
  · rintro ⟨hb, hoff, hlt⟩
    refine ⟨?_, fun j hj => ?_⟩
    · rw [List.getElem?_dropLast, if_pos hb]; exact hoff
    · rw [List.getElem?_dropLast]
      split
      · exact hlt j hj
      · simp

theorem memchr_dropLast_zero_none_iff (text : List Nat) :
    memchr 0 text.dropLast = none ↔
      ∀ j, j < text.length - 1 → ¬ text[j]? = some 0 := by
  rw [memchr_none_iff]
  constructor
  · intro h j hj
    have hj2 := h j
    rw [List.getElem?_dropLast, if_pos hj] at hj2
    exact hj2
  · intro h j
    rw [List.getElem?_dropLast]
    split
    · exact h j (by assumption)
    · simp

/-- Specialisation of `utf8Valid_of_append_zero` to `dropLast`. -/
theorem utf8Valid_dropLast (l : List Nat) (h0 : l.getLast? = some 0)
    (hv : utf8Valid l = true) : utf8Valid l.dropLast = true := by
  have hne : l ≠ [] := by rintro rfl; simp at h0
  have hlast : l.getLast hne = 0 := by
    rw [List.getLast?_eq_getLast l hne] at h0
    exact Option.some.inj h0
  have hdec : l.dropLast ++ [0] = l := by
    conv_rhs => rw [← List.dropLast_concat_getLast hne]
    rw [hlast]
  exact utf8Valid_of_append_zero l.dropLast.length l.dropLast (Nat.le_refl _)
    (by rw [hdec]; exact hv)

theorem DStr.Inv.raw_ne_nil {s : DStr} (h : s.Inv) : s.raw ≠ [] := by
  intro he
  have h2 := h.2.1
  rw [he] at h2
  simp at h2

theorem DStr.Inv.length_pos {s : DStr} (h : s.Inv) : 1 ≤ s.raw.length :=
  List.length_pos.mpr h.raw_ne_nil

theorem DStr.len_with_nul_eq {s : DStr} (h : s.Inv) :
    s.len_with_nul = some s.raw.length := by
  have := h.length_pos
  rw [DStr.len_with_nul, if_neg (by omega)]

theorem DStr.len_eq {s : DStr} (h : s.Inv) :
    s.len = some (s.raw.length - 1) := by
  rw [DStr.len, DStr.len_with_nul_eq h]
  rfl

theorem DStr.as_bytes_eq {s : DStr} (h : s.Inv) :
    s.as_bytes = some s.raw.dropLast := by
  rw [DStr.as_bytes, DStr.len_eq h, Option.some_bind,
    if_pos (by omega), List.dropLast_eq_take]


/-! ### Claim theorems -/

/-- C1: the validating constructor from text fails with `MissingNul`
exactly on the empty input, with `NotNulTerminated` exactly when the
input is non-empty but its final byte is non-zero, with
`InteriorNul off` exactly when the input is nul-terminated and `off` is
the offset of the first zero byte strictly before the final position,
and succeeds exactly when the final byte is zero and no earlier byte is
zero. -/
theorem from_str_with_nul_cases (text : List Nat) :
    (DStr.from_str_with_nul text = .error .MissingNul ↔ text = []) ∧
    (DStr.from_str_with_nul text = .error .NotNulTerminated ↔
      (text ≠ [] ∧ ¬ text.getLast? = some 0)) ∧
    (∀ off, DStr.from_str_with_nul text = .error (.InteriorNul off) ↔
      (text.getLast? = some 0 ∧ off < text.length - 1 ∧ text[off]? = some 0 ∧
        ∀ j, j < off → ¬ text[j]? = some 0)) ∧
    ((∃ d, DStr.from_str_with_nul text = .ok d) ↔
      (text.getLast? = some 0 ∧ ∀ j, j < text.length - 1 → ¬ text[j]? = some 0)) := by
  cases hlast : text.getLast? with
  | none =>
    have htext : text = [] := List.getLast?_eq_none_iff.mp hlast
    subst htext
    exact ⟨by simp [DStr.from_str_with_nul], by simp [DStr.from_str_with_nul],
      fun off => by simp [DStr.from_str_with_nul], by simp [DStr.from_str_with_nul]⟩
  | some b =>
    have hne : text ≠ [] := by rintro rfl; simp at hlast
    have hunf : DStr.from_str_with_nul text =
        (if b ≠ 0 then .error .NotNulTerminated
         else match memchr 0 text.dropLast with
           | some off => .error (.InteriorNul off)
           | none => .ok ⟨text⟩) := by
      simp only [DStr.from_str_with_nul]
      rw [hlast]
    by_cases hb0 : b = 0
    · subst hb0
      rw [if_neg (fun hc => hc rfl)] at hunf
      cases hmem : memchr 0 text.dropLast with
      | some off0 =>
        rw [hmem] at hunf
        obtain ⟨hb, hoff, hlt⟩ := (memchr_dropLast_zero_some_iff text off0).mp hmem
        refine ⟨?_, ?_, ?_, ?_⟩
        · rw [hunf]; simp [hne]
        · rw [hunf]; simp
        · intro off
          rw [hunf]
          constructor
          · intro he
            have hoo : off0 = off := by simpa using he
            subst hoo
            exact ⟨rfl, hb, hoff, hlt⟩
          · rintro ⟨_, hb2, hoff2, hlt2⟩
            have hoo : off = off0 := by
              by_contra hneq
              rcases Nat.lt_or_ge off off0 with hlt3 | hge
              · exact hlt off hlt3 hoff2
              · exact hlt2 off0 (by omega) hoff
            subst hoo
            rfl
        · rw [hunf]
          constructor
          · rintro ⟨d, hd⟩; cases hd
          · rintro ⟨_, hall⟩
            exact absurd hoff (hall off0 hb)
      | none =>
        rw [hmem] at hunf
        have hnone := (memchr_dropLast_zero_none_iff text).mp hmem
        refine ⟨?_, ?_, ?_, ?_⟩
        · rw [hunf]; simp [hne]
        · rw [hunf]; simp
        · intro off
          rw [hunf]
          constructor
          · intro he; cases he
          · rintro ⟨_, hb2, hoff2, _⟩
            exact absurd hoff2 (hnone off hb2)
        · rw [hunf]
          exact ⟨fun _ => ⟨rfl, hnone⟩, fun _ => ⟨⟨text⟩, rfl⟩⟩
    · rw [if_pos hb0] at hunf
      refine ⟨?_, ?_, ?_, ?_⟩
      · rw [hunf]; simp [hne]
      · rw [hunf]; simp [hne, hb0]
      · intro off
        rw [hunf]
        constructor
        · intro he; simp at he
        · rintro ⟨h0, _⟩
          exact absurd (Option.some.inj h0) hb0
      · rw [hunf]
        constructor
        · rintro ⟨d, hd⟩; cases hd
        · rintro ⟨h0, _⟩
          exact absurd (Option.some.inj h0) hb0

/-- Witness for C1, which is also the spec's concrete example: the bytes
`61 62 00 63 64 00` are rejected with an interior nul at offset 2. -/
theorem from_str_with_nul_cases_witness :
    DStr.from_str_with_nul [0x61, 0x62, 0, 0x63, 0x64, 0] =
      .error (.InteriorNul 2) :=
  ((from_str_with_nul_cases [0x61, 0x62, 0, 0x63, 0x64, 0]).2.2.1 2).mpr
    (by decide)

/-- C2: `DString::as_dstr` (and `Deref::deref`, which calls it) as
written does not return a view over the buffer contents: its body is
`todo!()`, which panics unconditionally (modelled as `none`), here shown
on the owned copy of the view over bytes `61 00`. -/
theorem dstring_as_dstr_panics :
    DString.as_dstr (DString.fromDStr ⟨[0x61, 0]⟩) = none ∧
    DString.deref (DString.fromDStr ⟨[0x61, 0]⟩) = none :=
  ⟨rfl, rfl⟩

/-- C3: for every valid view, `len` and `len_with_nul` are both defined
and `len_with_nul = len + 1 ≥ 1`. -/
theorem len_with_nul_eq_len_succ (s : DStr) (h : s.Inv) :
    ∃ m n, s.len = some m ∧ s.len_with_nul = some n ∧ n = m + 1 ∧ 1 ≤ n := by
  have hpos := h.length_pos
  exact ⟨s.raw.length - 1, s.raw.length, DStr.len_eq h, DStr.len_with_nul_eq h,
    by omega, hpos⟩

/-- Witness for C3 at the one-character view over bytes `61 00`. -/
theorem len_with_nul_eq_len_succ_witness :
    DStr.Inv ⟨[0x61, 0]⟩ ∧
      ∃ m n, DStr.len ⟨[0x61, 0]⟩ = some m ∧
        DStr.len_with_nul ⟨[0x61, 0]⟩ = some n ∧ n = m + 1 ∧ 1 ≤ n :=
  ⟨by decide, len_with_nul_eq_len_succ ⟨[0x61, 0]⟩ (by decide)⟩

/-- C4: for every valid view, `is_empty` is defined and returns `true`
exactly when the first byte is the nul terminator, equivalently when
`len` returns 0. -/
theorem is_empty_iff_first_nul (s : DStr) (h : s.Inv) :
    (s.is_empty = some true ↔ s.raw[0]? = some 0) ∧
    (s.is_empty = some true ↔ s.len = some 0) := by
  have hlast := h.2.1
  have hint := h.2.2
  have hlen := DStr.len_eq h
  cases hr : s.raw with
  | nil => exact absurd hr h.raw_ne_nil
  | cons b t =>
    have hemp : s.is_empty = some (b == 0) := by
      rw [DStr.is_empty, hr]
    have hp : 1 ≤ s.raw.length := h.length_pos
    have h01 : b = 0 ↔ s.raw.length = 1 := by
      constructor
      · intro hb
        by_contra hlen1
        have hlt : 0 < s.raw.length - 1 := by omega
        have hi0 := hint 0 hlt
        rw [hr] at hi0
        simp [hb] at hi0
      · intro h1
        rw [hr] at h1 hlast
        have ht : t = [] := by simpa using h1
        subst ht
        simpa using hlast
    constructor
    · rw [hemp]
      simp
    · rw [hemp, hlen]
      simp only [Option.some.injEq]
      constructor
      · intro hb
        have hb0 : b = 0 := by simpa using hb
        have hl1 := h01.mp hb0
        omega
      · intro hlen0
        have hb := h01.mpr (by omega)
        simp [hb]

/-- Witness for C4 at the one-character view over bytes `61 00`. -/
theorem is_empty_iff_first_nul_witness :
    DStr.Inv ⟨[0x61, 0]⟩ ∧
      ((DStr.is_empty ⟨[0x61, 0]⟩ = some true ↔
          (DStr.raw ⟨[0x61, 0]⟩)[0]? = some 0) ∧
        (DStr.is_empty ⟨[0x61, 0]⟩ = some true ↔ DStr.len ⟨[0x61, 0]⟩ = some 0)) :=
  ⟨by decide, is_empty_iff_first_nul ⟨[0x61, 0]⟩ (by decide)⟩

/-- C5: `memchr` returns `some i` exactly when `i` is the smallest index
holding the needle, and `none` exactly when the needle is absent.  (As a
Lean function it is deterministic, total and side-effect free by
construction.) -/
theorem memchr_first_occurrence (needle : Nat) (haystack : List Nat) :
    (∀ i, memchr needle haystack = some i ↔
      (haystack[i]? = some needle ∧ ∀ j, j < i → ¬ haystack[j]? = some needle)) ∧
    (memchr needle haystack = none ↔ ∀ (j : Nat), ¬ haystack[j]? = some needle) :=
  ⟨fun i => memchr_some_iff needle haystack i, memchr_none_iff needle haystack⟩

/-- C6: under the caller contract — some zero byte at offset `k` within
the bound, all earlier bytes non-zero — `strlen` terminates and returns
the least zero offset `k`. -/
theorem strlen_first_nul (mem : Nat → Nat) (fuel k : Nat)
    (hk : mem k = 0) (hleast : ∀ j, j < k → mem j ≠ 0) (hfuel : k < fuel) :
    strlen mem fuel = some k :=
  strlenLoop_eq_some mem fuel 0 k (Nat.zero_le k) (by omega) hk
    (fun j _ hj2 => hleast j hj2)

/-- Witness for C6: memory `5 6 7 0 ...` has its first nul at offset 3. -/
theorem strlen_first_nul_witness :
    ((fun n : Nat => if n = 3 then 0 else 1) 3 = 0) ∧
      (∀ j, j < 3 → (fun n : Nat => if n = 3 then 0 else 1) j ≠ 0) ∧
      (3 < 10) ∧
      strlen (fun n : Nat => if n = 3 then 0 else 1) 10 = some 3 :=
  ⟨by decide, by decide, by decide,
    strlen_first_nul (fun n : Nat => if n = 3 then 0 else 1) 10 3
      (by decide) (by decide) (by decide)⟩

/-- C7: widening a `FromStrError` and narrowing back is the identity;
narrowing a `FromBytesError` succeeds (with a result equal to the
original under the cross-type equality) exactly when it is not
`InvalidUtf8`, and fails exactly when it is. -/
theorem error_conversion_roundtrip :
    (∀ e : FromStrError,
      FromStrError.tryFromFromBytesError e.to_from_bytes_error = .ok e) ∧
    (∀ b : FromBytesError,
      ((∃ e, FromStrError.tryFromFromBytesError b = .ok e ∧
          FromStrError.eqFromBytesError e b = true) ↔
        ¬ ∃ u, b = .InvalidUtf8 u) ∧
      (FromStrError.tryFromFromBytesError b = .error () ↔
        ∃ u, b = .InvalidUtf8 u)) := by
  refine ⟨fun e => ?_, fun b => ⟨?_, ?_⟩⟩
  · cases e <;> rfl
  · cases b <;>
      simp [FromStrError.tryFromFromBytesError, FromStrError.eqFromBytesError]
  · cases b <;> simp [FromStrError.tryFromFromBytesError]

/-- C8: the cross-type equality between the two error types agrees with
widening the narrower value and comparing in `FromBytesError`; the two
`PartialEq` implementations are symmetric; and a text error never equals
an `InvalidUtf8` byte error. -/
theorem cross_type_eq (e : FromStrError) (b : FromBytesError) :
    (FromStrError.eqFromBytesError e b = true ↔
      FromBytesError.fromFromStrError e = b) ∧
    (FromBytesError.eqFromStrError b e = FromStrError.eqFromBytesError e b) ∧
    (∀ u, b = .InvalidUtf8 u → FromStrError.eqFromBytesError e b = false) := by
  cases e <;> cases b <;>
    simp [FromStrError.eqFromBytesError, FromBytesError.eqFromStrError,
      FromStrError.tryFromFromBytesError, FromBytesError.fromFromStrError,
      FromStrError.to_from_bytes_error, eq_comm]

/-- Witness for C8: `MissingNul` compared with an `InvalidUtf8` byte
error is `false`. -/
theorem cross_type_eq_witness :
    FromStrError.eqFromBytesError .MissingNul (.InvalidUtf8 ⟨0, none⟩) = false :=
  (cross_type_eq .MissingNul (.InvalidUtf8 ⟨0, none⟩)).2.2 ⟨0, none⟩ rfl

/-- C9: under the invariants, every read accessor is defined — the
unchecked steps inside them (`NonZeroUsize::new_unchecked` in
`len_with_nul`, the first-byte read in `is_empty`, the slice
reconstruction in `as_bytes`, plus `from_utf8_unchecked` in `as_str` and
the `CStr` contract in `as_cstr`) never hit their undefined branch.
The remaining read accessors (`as_bytes_with_nul`, `as_str_with_nul`,
`as_ptr`, `as_c_ptr`) are total in the model because their Rust bodies
contain no fallible or unchecked step at all. -/
theorem accessors_no_panic (s : DStr) (h : s.Inv) :
    (∃ n, s.len_with_nul = some n) ∧ (∃ n, s.len = some n) ∧
    (∃ b, s.is_empty = some b) ∧ (∃ bs, s.as_bytes = some bs) ∧
    (∃ t, s.as_str = some t) ∧ (∃ c, s.as_cstr = some c) := by
  have hv := h.1
  have hlast := h.2.1
  have hint := h.2.2
  refine ⟨⟨s.raw.length, DStr.len_with_nul_eq h⟩,
    ⟨s.raw.length - 1, DStr.len_eq h⟩, ?_, ⟨s.raw.dropLast, DStr.as_bytes_eq h⟩,
    ⟨s.raw.dropLast, ?_⟩, ⟨s.raw, ?_⟩⟩
  · cases hr : s.raw with
    | nil => exact absurd hr h.raw_ne_nil
    | cons b t => exact ⟨b == 0, by rw [DStr.is_empty, hr]⟩
  · rw [DStr.as_str, DStr.as_bytes_eq h, Option.some_bind,
      if_pos (utf8Valid_dropLast s.raw hlast hv)]
  · rw [DStr.as_cstr]
    exact if_pos ⟨hlast, hint⟩

/-- Witness for C9 at the one-character view over bytes `61 00`. -/
theorem accessors_no_panic_witness :
    DStr.Inv ⟨[0x61, 0]⟩ ∧
      ((∃ n, DStr.len_with_nul ⟨[0x61, 0]⟩ = some n) ∧
        (∃ n, DStr.len ⟨[0x61, 0]⟩ = some n) ∧
        (∃ b, DStr.is_empty ⟨[0x61, 0]⟩ = some b) ∧
        (∃ bs, DStr.as_bytes ⟨[0x61, 0]⟩ = some bs) ∧
        (∃ t, DStr.as_str ⟨[0x61, 0]⟩ = some t) ∧
        (∃ c, DStr.as_cstr ⟨[0x61, 0]⟩ = some c)) :=
  ⟨by decide, accessors_no_panic ⟨[0x61, 0]⟩ (by decide)⟩

/-- C10: unchecked construction from a string satisfying the view
invariants followed by the with-terminator accessors is the identity on
the bytes — no scan, no change. -/
theorem unchecked_roundtrip (s : List Nat)
    (_h : s ≠ [] ∧ s.getLast? = some 0 ∧
      ∀ i, i < s.length - 1 → ¬ s[i]? = some 0) :
    DStr.as_str_with_nul (DStr.from_str_with_nul_unchecked s) = s ∧
    DStr.as_bytes_with_nul (DStr.from_str_with_nul_unchecked s) = s :=
  ⟨rfl, rfl⟩

/-- Witness for C10 at bytes `61 00`. -/
theorem unchecked_roundtrip_witness :
    ([0x61, 0] ≠ [] ∧ [0x61, 0].getLast? = some 0 ∧
      ∀ i, i < [0x61, 0].length - 1 → ¬ [0x61, 0][i]? = some 0) ∧
    (DStr.as_str_with_nul (DStr.from_str_with_nul_unchecked [0x61, 0]) = [0x61, 0] ∧
      DStr.as_bytes_with_nul (DStr.from_str_with_nul_unchecked [0x61, 0]) = [0x61, 0]) :=
  ⟨by decide, unchecked_roundtrip [0x61, 0] (by decide)⟩

end Dstr
